import Mathlib

/-!
Shallow embedding of `src/query.py` (a Timestream query pagination utility)
and proofs of its specification's claims.

The wire values are Python dicts with possibly-absent keys; absent keys are
modelled as `none` in `Option`-typed fields. A Python `dict` built by
repeated assignment is modelled as an association list with unique keys,
where assigning to an existing key overwrites its value in place and
assigning to a fresh key appends at the end (insertion order), exactly as
CPython dicts behave.
-/

namespace QueryTimestream

/-- One cell of a row: the wire dict `{ScalarValue?: string}`;
`data.get('ScalarValue')` yields `none` when the key is absent. -/
structure Datum where
  ScalarValue : Option String
deriving DecidableEq

/-- One column descriptor: the wire dict `{Name?: string}`;
`info.get('Name')` yields `none` when the key is absent. -/
structure ColumnDescriptor where
  Name : Option String
deriving DecidableEq

/-- One row: the wire dict `{Data?: Datum[]}`; `row.get('Data', [])`
defaults an absent key to the empty list. -/
structure Row where
  Data : Option (List Datum)
deriving DecidableEq

/-- One collaborator response: `{ColumnInfo?, Rows?, NextToken?}`. -/
structure Response where
  ColumnInfo : Option (List ColumnDescriptor)
  Rows : Option (List Row)
  NextToken : Option String
deriving DecidableEq

/-- One outbound request's parameters: `QueryString` always present,
`NextToken` present only when the Python value was truthy. -/
structure Request where
  QueryString : String
  NextToken : Option String
deriving DecidableEq

/-- An exception raised by the collaborator; opaque to this layer. -/
structure Exn where
  msg : String
deriving DecidableEq

/-- Keys of a flattened row: `info.get('Name')`, so possibly `none`. -/
abbrev FlatKey := Option String

/-- Values of a flattened row: `data.get('ScalarValue')`, possibly `none`. -/
abbrev FlatVal := Option String

/-- A flattened row: a Python dict as an insertion-ordered association list. -/
abbrev FlattenedRow := List (FlatKey × FlatVal)

/-- Python dict assignment `result[k] = v`: overwrite in place when `k` is
already a key, else append at the end. -/
def dictSet (d : FlattenedRow) (k : FlatKey) (v : FlatVal) : FlattenedRow :=
  if k ∈ d.map Prod.fst then
    d.map (fun p => if p.1 = k then (k, v) else p)
  else
    d ++ [(k, v)]

/-- Python dict read `result.get(k)` / `result[k]`: the value at key `k`. -/
def dictGet (d : FlattenedRow) (k : FlatKey) : Option FlatVal :=
  match d with
  | [] => none
  | p :: ps => if p.1 = k then some p.2 else dictGet ps k

/-- Python truthiness of the `next_token` variable: `None` and `""` are
falsy, any non-empty string is truthy. -/
def truthy : Option String → Bool
  | none => false
  | some s => s ≠ ""

/-- `parse_row` from `src/query.py`: zip the column descriptors with the
row's cells (zip-to-shortest), and for each aligned pair assign
`result[info.get('Name')] = data.get('ScalarValue')` into a fresh dict. -/
def parse_row (row : Row) (column_info : List ColumnDescriptor) : FlattenedRow :=
  (column_info.zip (row.Data.getD [])).foldl
    (fun result p => dictSet result p.1.Name p.2.ScalarValue) []

/-- The flattened rows one response page contributes, in arrival order. -/
def pageRows (r : Response) : List FlattenedRow :=
  (r.Rows.getD []).map (fun row => parse_row row (r.ColumnInfo.getD []))

/-- The request parameters built at the top of the loop body:
`params = {'QueryString': qs}`, then `if next_token: params['NextToken'] = next_token`. -/
def mkParams (q : String) (t : Option String) : Request :=
  { QueryString := q, NextToken := if truthy t then t else none }

/-- Outcome of `run_query` against a finite script of collaborator
behaviours: normal return, a propagated collaborator exception, or the
script ran out while the loop still wanted another page. -/
inductive QueryOutcome where
  | ok (rows : List FlattenedRow)
  | raised (e : Exn)
  | noResponse
deriving DecidableEq

/-- The `while True` loop of `run_query`, consuming one scripted
collaborator behaviour per `client.query(**params)` call. Returns the
outcome together with the trace of requests issued, in order. -/
def run_query_aux (query_string : String) (next_token : Option String)
    (all_rows : List FlattenedRow) :
    List (Except Exn Response) → QueryOutcome × List Request
  | [] => (.noResponse, [])
  | .error e :: _ => (.raised e, [mkParams query_string next_token])
  | .ok response :: rest =>
    if truthy response.NextToken then
      let res := run_query_aux query_string response.NextToken
        (all_rows ++ pageRows response) rest
      (res.1, mkParams query_string next_token :: res.2)
    else
      (.ok (all_rows ++ pageRows response), [mkParams query_string next_token])

/-- `run_query` from `src/query.py`: `next_token = None`, `all_rows = []`,
then the pagination loop. -/
def run_query (script : List (Except Exn Response)) (query_string : String) :
    QueryOutcome × List Request :=
  run_query_aux query_string none [] script

/-- The value assigned by the last aligned (descriptor, cell) pair whose
name is `k`: the reference "last-wins" reading of duplicate keys. -/
def lastValue (ps : List (ColumnDescriptor × Datum)) (k : FlatKey) : Option FlatVal :=
  (ps.reverse.find? (fun p => p.1.Name = k)).map (fun p => p.2.ScalarValue)

/-- The dict-building fold of `parse_row`, with an explicit starting dict. -/
def insertPairs (d : FlattenedRow) (ps : List (ColumnDescriptor × Datum)) : FlattenedRow :=
  ps.foldl (fun result p => dictSet result p.1.Name p.2.ScalarValue) d

/-- A response with its possibly-absent `ColumnInfo` and `Rows` fields
replaced by explicitly present empty lists when absent. -/
def respDefaulted (r : Response) : Response :=
  ⟨some (r.ColumnInfo.getD []), some (r.Rows.getD []), r.NextToken⟩

/-! ### Example pages used to instantiate the theorems below -/

/-- Page with one row `r1` and a next-page cursor. -/
def examplePage1 : Response :=
  ⟨some [⟨some "c"⟩], some [⟨some [⟨some "r1"⟩]⟩], some "t1"⟩

/-- Page with two rows `r2`, `r3` and a next-page cursor. -/
def examplePage2 : Response :=
  ⟨some [⟨some "c"⟩], some [⟨some [⟨some "r2"⟩]⟩, ⟨some [⟨some "r3"⟩]⟩], some "t2"⟩

/-- Page with no rows and no cursor. -/
def examplePage3 : Response :=
  ⟨some [⟨some "c"⟩], some [], none⟩

/-! ### Dictionary lemmas -/

theorem dictGet_append (d₁ d₂ : FlattenedRow) (k : FlatKey) :
    dictGet (d₁ ++ d₂) k = (dictGet d₁ k).or (dictGet d₂ k) := by
  induction d₁ with
  | nil => simp [dictGet]
  | cons p ps ih =>
    by_cases h : p.1 = k <;> simp [dictGet, h, ih]

theorem dictGet_eq_none_iff (d : FlattenedRow) (k : FlatKey) :
    dictGet d k = none ↔ k ∉ d.map Prod.fst := by
  induction d with
  | nil => simp [dictGet]
  | cons p ps ih =>
    by_cases h : p.1 = k
    · simp [dictGet, h]
    · simp only [dictGet, if_neg h, List.map_cons, List.mem_cons, ih]
      constructor
      · rintro hk (h1 | h2)
        · exact h h1.symm
        · exact hk h2
      · exact fun hk h2 => hk (Or.inr h2)

theorem dictGet_mapSet (d : FlattenedRow) (k k' : FlatKey) (v : FlatVal) :
    dictGet (d.map (fun p => if p.1 = k then (k, v) else p)) k' =
      if k = k' then (dictGet d k).map (fun _ => v) else dictGet d k' := by
  induction d with
  | nil => by_cases hk : k = k' <;> simp [dictGet, hk]
  | cons p ps ih =>
    by_cases hp : p.1 = k
    · by_cases hk : k = k'
      · subst hk; simp [dictGet, hp]
      · simp [dictGet, hp, hk, ih]
    · by_cases hk : k = k'
      · subst hk; simp [dictGet, hp, ih]
      · by_cases hpk : p.1 = k'
        · have hk' : ¬k' = k := fun h => hk h.symm
          simp [dictGet, hp, hk, hpk, hk']
        · simp [dictGet, hp, hk, hpk, ih]

theorem dictGet_dictSet (d : FlattenedRow) (k k' : FlatKey) (v : FlatVal) :
    dictGet (dictSet d k v) k' = if k = k' then some v else dictGet d k' := by
  unfold dictSet
  by_cases hmem : k ∈ d.map Prod.fst
  · rw [if_pos hmem, dictGet_mapSet]
    by_cases hk : k = k'
    · rw [if_pos hk, if_pos hk]
      have hne : dictGet d k ≠ none := fun h => (dictGet_eq_none_iff d k).1 h hmem
      obtain ⟨w, hw⟩ := Option.ne_none_iff_exists'.1 hne
      rw [hw]; rfl
    · rw [if_neg hk, if_neg hk]
  · rw [if_neg hmem, dictGet_append]
    by_cases hk : k = k'
    · have h0 : dictGet d k' = none := (dictGet_eq_none_iff d k').2 (hk ▸ hmem)
      rw [if_pos hk, h0]
      simp [dictGet, hk]
    · simp [dictGet, hk]

theorem keys_dictSet_of_mem (d : FlattenedRow) (k : FlatKey) (v : FlatVal)
    (hmem : k ∈ d.map Prod.fst) :
    (dictSet d k v).map Prod.fst = d.map Prod.fst := by
  simp only [dictSet, if_pos hmem, List.map_map]
  apply List.map_congr_left
  intro p _
  by_cases hp : p.1 = k <;> simp [hp, Function.comp]

theorem keys_dictSet_of_not_mem (d : FlattenedRow) (k : FlatKey) (v : FlatVal)
    (hmem : k ∉ d.map Prod.fst) :
    (dictSet d k v).map Prod.fst = d.map Prod.fst ++ [k] := by
  simp [dictSet, if_neg hmem]

theorem mem_keys_dictSet (d : FlattenedRow) (k k' : FlatKey) (v : FlatVal) :
    k' ∈ (dictSet d k v).map Prod.fst ↔ k' = k ∨ k' ∈ d.map Prod.fst := by
  by_cases hmem : k ∈ d.map Prod.fst
  · rw [keys_dictSet_of_mem d k v hmem]
    constructor
    · exact fun h => Or.inr h
    · rintro (rfl | h) <;> assumption
  · rw [keys_dictSet_of_not_mem d k v hmem]
    simp [or_comm]

theorem length_dictSet_of_mem (d : FlattenedRow) (k : FlatKey) (v : FlatVal)
    (hmem : k ∈ d.map Prod.fst) :
    (dictSet d k v).length = d.length := by
  simp [dictSet, if_pos hmem]

theorem length_dictSet_of_not_mem (d : FlattenedRow) (k : FlatKey) (v : FlatVal)
    (hmem : k ∉ d.map Prod.fst) :
    (dictSet d k v).length = d.length + 1 := by
  simp [dictSet, if_neg hmem]

/-! ### Lemmas about the dict-building fold -/

theorem insertPairs_nil (d : FlattenedRow) : insertPairs d [] = d := rfl

theorem insertPairs_cons (d : FlattenedRow) (p : ColumnDescriptor × Datum)
    (ps : List (ColumnDescriptor × Datum)) :
    insertPairs d (p :: ps) = insertPairs (dictSet d p.1.Name p.2.ScalarValue) ps := rfl

theorem parse_row_eq_insertPairs (row : Row) (cols : List ColumnDescriptor) :
    parse_row row cols = insertPairs [] (cols.zip (row.Data.getD [])) := rfl

theorem lastValue_nil (k : FlatKey) : lastValue [] k = none := rfl

theorem lastValue_cons (p : ColumnDescriptor × Datum)
    (ps : List (ColumnDescriptor × Datum)) (k : FlatKey) :
    lastValue (p :: ps) k =
      (lastValue ps k).or (if p.1.Name = k then some p.2.ScalarValue else none) := by
  simp only [lastValue, List.reverse_cons, List.find?_append]
  cases hf : ps.reverse.find? (fun q => q.1.Name = k) with
  | some q => simp [Option.or]
  | none =>
    by_cases hp : p.1.Name = k <;> simp [List.find?, hp]

theorem dictGet_insertPairs (ps : List (ColumnDescriptor × Datum)) :
    ∀ (d : FlattenedRow) (k : FlatKey),
      dictGet (insertPairs d ps) k = (lastValue ps k).or (dictGet d k) := by
  induction ps with
  | nil => intro d k; simp [insertPairs_nil, lastValue_nil]
  | cons p ps ih =>
    intro d k
    rw [insertPairs_cons, ih, dictGet_dictSet, lastValue_cons]
    by_cases hp : p.1.Name = k <;>
      cases lastValue ps k <;> simp [hp, Option.or]

theorem mem_keys_insertPairs (ps : List (ColumnDescriptor × Datum)) :
    ∀ (d : FlattenedRow) (k : FlatKey),
      k ∈ (insertPairs d ps).map Prod.fst ↔
        k ∈ d.map Prod.fst ∨ k ∈ ps.map (fun p => p.1.Name) := by
  induction ps with
  | nil => intro d k; simp [insertPairs_nil]
  | cons p ps ih =>
    intro d k
    rw [insertPairs_cons, ih, mem_keys_dictSet]
    simp only [List.map_cons, List.mem_cons]
    tauto

theorem length_insertPairs (ps : List (ColumnDescriptor × Datum)) :
    ∀ (d : FlattenedRow),
      (ps.map (fun p => p.1.Name)).Nodup →
      (∀ p ∈ ps, p.1.Name ∉ d.map Prod.fst) →
      (insertPairs d ps).length = d.length + ps.length := by
  induction ps with
  | nil => intro d _ _; simp [insertPairs_nil]
  | cons p ps ih =>
    intro d hnd hfresh
    have hfreshp : p.1.Name ∉ d.map Prod.fst := hfresh p (List.mem_cons_self p ps)
    rw [insertPairs_cons, ih _ (List.nodup_cons.1 hnd).2]
    · rw [length_dictSet_of_not_mem d _ _ hfreshp]
      simp [Nat.add_assoc, Nat.add_comm 1]
    · intro q hq
      rw [keys_dictSet_of_not_mem d _ _ hfreshp]
      simp only [List.mem_append, List.mem_singleton]
      rintro (h1 | h2)
      · exact hfresh q (List.mem_cons_of_mem p hq) h1
      · have hmem' : q.1.Name ∈ ps.map (fun p => p.1.Name) := List.mem_map_of_mem _ hq
        rw [h2] at hmem'
        exact (List.nodup_cons.1 hnd).1 hmem'

theorem find?_eq_self_of_nodup_names :
    ∀ (l : List (ColumnDescriptor × Datum)),
      (l.map (fun p => p.1.Name)).Nodup →
      ∀ p ∈ l, l.find? (fun q => q.1.Name = p.1.Name) = some p := by
  intro l
  induction l with
  | nil => simp
  | cons a l ih =>
    intro hnd p hp
    rcases List.mem_cons.1 hp with rfl | hpl
    · rw [List.find?_cons_of_pos _ (by simp)]
    · have hne : ¬a.1.Name = p.1.Name := by
        intro h
        have hmem' : p.1.Name ∈ l.map (fun p => p.1.Name) := List.mem_map_of_mem _ hpl
        rw [← h] at hmem'
        exact (List.nodup_cons.1 hnd).1 hmem'
      rw [List.find?_cons_of_neg _ (by simpa using hne)]
      exact ih (List.nodup_cons.1 hnd).2 p hpl

/-! ### Zip truncation -/

theorem zip_truncL : ∀ (l : List ColumnDescriptor) (l' : List Datum),
    l.zip l' = (l.take l'.length).zip l'
  | [], _ => by simp
  | _ :: _, [] => by simp
  | a :: l, b :: l' => by
    simp only [List.zip_cons_cons, List.length_cons, List.take_succ_cons]
    rw [← zip_truncL l l']

theorem zip_truncR : ∀ (l : List ColumnDescriptor) (l' : List Datum),
    l.zip l' = l.zip (l'.take l.length)
  | [], _ => by simp
  | _ :: _, [] => by simp
  | a :: l, b :: l' => by
    simp only [List.zip_cons_cons, List.length_cons, List.take_succ_cons]
    rw [← zip_truncR l l']

/-! ### Pagination loop lemmas -/

theorem run_query_aux_pages (q : String) :
    ∀ (pre : List Response) (last : Response)
      (tail : List (Except Exn Response)) (t : Option String) (acc : List FlattenedRow),
      (∀ r ∈ pre, truthy r.NextToken) → truthy last.NextToken = false →
      run_query_aux q t acc (pre.map Except.ok ++ Except.ok last :: tail) =
        (QueryOutcome.ok (acc ++ ((pre ++ [last]).map pageRows).flatten),
         (t :: pre.map Response.NextToken).map (mkParams q)) := by
  intro pre
  induction pre with
  | nil =>
    intro last tail t acc _ hlast
    simp [run_query_aux, hlast]
  | cons p ps ih =>
    intro last tail t acc hpre hlast
    have hp : truthy p.NextToken := hpre p (List.mem_cons_self p ps)
    simp only [List.map_cons, List.cons_append, run_query_aux, hp, if_pos, List.append_eq]
    rw [ih last tail p.NextToken (acc ++ pageRows p)
      (fun r hr => hpre r (List.mem_cons_of_mem p hr)) hlast]
    simp [List.append_assoc]

theorem run_query_aux_raise (q : String) :
    ∀ (pre : List Response) (e : Exn)
      (tail : List (Except Exn Response)) (t : Option String) (acc : List FlattenedRow),
      (∀ r ∈ pre, truthy r.NextToken) →
      run_query_aux q t acc (pre.map Except.ok ++ Except.error e :: tail) =
        (QueryOutcome.raised e, (t :: pre.map Response.NextToken).map (mkParams q)) := by
  intro pre
  induction pre with
  | nil =>
    intro e tail t acc _
    simp [run_query_aux]
  | cons p ps ih =>
    intro e tail t acc hpre
    have hp : truthy p.NextToken := hpre p (List.mem_cons_self p ps)
    simp only [List.map_cons, List.cons_append, run_query_aux, hp, if_pos, List.append_eq]
    rw [ih e tail p.NextToken (acc ++ pageRows p)
      (fun r hr => hpre r (List.mem_cons_of_mem p hr))]
    simp

theorem run_query_aux_trace (q : String) :
    ∀ (script : List (Except Exn Response)) (t : Option String) (acc : List FlattenedRow),
      (∀ r ∈ (run_query_aux q t acc script).2, r.QueryString = q) ∧
      (∀ r0, ((run_query_aux q t acc script).2).head? = some r0 → r0 = mkParams q t) ∧
      (∀ i req, ((run_query_aux q t acc script).2)[i + 1]? = some req →
        ∃ resp, script[i]? = some (Except.ok resp) ∧ truthy resp.NextToken ∧
          req = mkParams q resp.NextToken) := by
  intro script
  induction script with
  | nil =>
    intro t acc
    refine ⟨?_, ?_, ?_⟩ <;> simp [run_query_aux]
  | cons r rest ih =>
    intro t acc
    match r with
    | .error e =>
      refine ⟨?_, ?_, ?_⟩ <;> simp [run_query_aux, mkParams]
    | .ok resp =>
      by_cases ht : truthy resp.NextToken
      · obtain ⟨ih1, ih2, ih3⟩ := ih resp.NextToken (acc ++ pageRows resp)
        refine ⟨?_, ?_, ?_⟩
        · intro x hx
          simp only [run_query_aux, ht, if_pos, List.mem_cons] at hx
          rcases hx with rfl | hx
          · rfl
          · exact ih1 x hx
        · intro r0 h0
          simp only [run_query_aux, ht, if_pos, List.head?_cons, Option.some.injEq] at h0
          exact h0.symm
        · intro i req hreq
          simp only [run_query_aux, ht, if_pos, List.getElem?_cons_succ] at hreq
          cases i with
          | zero =>
            have hhead : ((run_query_aux q resp.NextToken (acc ++ pageRows resp) rest).2).head?
                = some req := by
              rw [List.head?_eq_getElem?]
              exact hreq
            refine ⟨resp, by simp, ht, ih2 req hhead⟩
          | succ j =>
            obtain ⟨resp', h1, h2, h3⟩ := ih3 j req hreq
            exact ⟨resp', by simpa using h1, h2, h3⟩
      · refine ⟨?_, ?_, ?_⟩ <;> simp [run_query_aux, ht, mkParams]

theorem run_query_aux_congr (q : String) (s₁ s₂ : List (Except Exn Response))
    (h : ∀ t acc, run_query_aux q t acc s₁ = run_query_aux q t acc s₂) :
    ∀ (pre : List (Except Exn Response)) (t : Option String) (acc : List FlattenedRow),
      run_query_aux q t acc (pre ++ s₁) = run_query_aux q t acc (pre ++ s₂) := by
  intro pre
  induction pre with
  | nil => intro t acc; exact h t acc
  | cons r rest ih =>
    intro t acc
    match r with
    | .error e => simp [run_query_aux]
    | .ok resp =>
      by_cases ht : truthy resp.NextToken <;> simp [run_query_aux, ht, ih]

theorem run_query_aux_defaulted (q : String) (r : Response)
    (tail : List (Except Exn Response)) :
    ∀ (t : Option String) (acc : List FlattenedRow),
      run_query_aux q t acc (Except.ok r :: tail) =
        run_query_aux q t acc (Except.ok (respDefaulted r) :: tail) := by
  intro t acc
  have h1 : pageRows (respDefaulted r) = pageRows r := by
    simp [pageRows, respDefaulted]
  have h2 : (respDefaulted r).NextToken = r.NextToken := rfl
  simp only [run_query_aux, h1, h2]

/-! ### Claim theorems: pagination -/

/-- C1: for every sequence of collaborator responses whose pages all carry a
non-empty next-page cursor until some page does not, `run_query` returns the
flattened rows of every fetched page concatenated in arrival order, and
issues exactly one fetch per page — one more fetch after a page exactly when
that page's cursor is non-empty, independently of whether pages had rows. -/
theorem C1_pagination_completeness (q : String) (pre : List Response)
    (last : Response) (tail : List (Except Exn Response))
    (hpre : ∀ r ∈ pre, truthy r.NextToken) (hlast : truthy last.NextToken = false) :
    run_query (pre.map Except.ok ++ Except.ok last :: tail) q =
      (QueryOutcome.ok (((pre ++ [last]).map pageRows).flatten),
       (none :: pre.map Response.NextToken).map (mkParams q)) ∧
    (run_query (pre.map Except.ok ++ Except.ok last :: tail) q).2.length =
      pre.length + 1 := by
  have h := run_query_aux_pages q pre last tail none [] hpre hlast
  refine ⟨by simpa [run_query] using h, ?_⟩
  rw [run_query, h]
  simp

/-- C1 witness: the spec's example — pages `[r1]`, `[r2, r3]`, `[]` with
cursors on the first two pages only — yields `[r1, r2, r3]` with exactly
three fetch calls. -/
theorem C1_pagination_completeness_witness :
    run_query [Except.ok examplePage1, Except.ok examplePage2, Except.ok examplePage3]
        "SELECT 1" =
      (QueryOutcome.ok
        [[(some "c", some "r1")], [(some "c", some "r2")], [(some "c", some "r3")]],
       [{ QueryString := "SELECT 1", NextToken := none },
        { QueryString := "SELECT 1", NextToken := some "t1" },
        { QueryString := "SELECT 1", NextToken := some "t2" }]) ∧
    (run_query [Except.ok examplePage1, Except.ok examplePage2, Except.ok examplePage3]
        "SELECT 1").2.length = 3 := by
  have h := C1_pagination_completeness "SELECT 1" [examplePage1, examplePage2]
    examplePage3 [] (by decide) (by decide)
  exact ⟨h.1.trans (by decide), h.2⟩

/-- C3: when any page fetch raises, `run_query` fails, and the failure
carries exactly the exception the collaborator raised, whatever it was. -/
theorem C3_failure_wraps_collaborator_exception (q : String) (pre : List Response)
    (e : Exn) (tail : List (Except Exn Response))
    (hpre : ∀ r ∈ pre, truthy r.NextToken) :
    (run_query (pre.map Except.ok ++ Except.error e :: tail) q).1 =
      QueryOutcome.raised e := by
  rw [run_query, run_query_aux_raise q pre e tail none [] hpre]

/-- C3 witness: an auth-style failure on the first fetch propagates. -/
theorem C3_failure_wraps_collaborator_exception_witness :
    (run_query [Except.error ⟨"AccessDeniedException"⟩] "SELECT 1").1 =
      QueryOutcome.raised ⟨"AccessDeniedException"⟩ :=
  C3_failure_wraps_collaborator_exception "SELECT 1" [] ⟨"AccessDeniedException"⟩ []
    (by simp)

/-- C6: when the fetch of some page `k ≥ 2` raises, `run_query` produces the
error and no `ok` result: the rows flattened from the earlier pages are
discarded, with no partial-result recovery. -/
theorem C6_no_partial_results (q : String) (pre : List Response) (e : Exn)
    (tail : List (Except Exn Response))
    (hpre : ∀ r ∈ pre, truthy r.NextToken) (_hne : pre ≠ []) :
    (run_query (pre.map Except.ok ++ Except.error e :: tail) q).1 =
      QueryOutcome.raised e ∧
    ∀ rows, (run_query (pre.map Except.ok ++ Except.error e :: tail) q).1 ≠
      QueryOutcome.ok rows := by
  have h := run_query_aux_raise q pre e tail none [] hpre
  refine ⟨by rw [run_query, h], ?_⟩
  intro rows hcontra
  rw [run_query, h] at hcontra
  exact QueryOutcome.noConfusion hcontra

/-- C6 witness: a throttling failure on the second fetch discards page 1's
row `r1`. -/
theorem C6_no_partial_results_witness :
    (run_query [Except.ok examplePage1, Except.error ⟨"ThrottlingException"⟩]
        "SELECT 1").1 = QueryOutcome.raised ⟨"ThrottlingException"⟩ ∧
    ∀ rows, (run_query [Except.ok examplePage1, Except.error ⟨"ThrottlingException"⟩]
        "SELECT 1").1 ≠ QueryOutcome.ok rows :=
  C6_no_partial_results "SELECT 1" [examplePage1] ⟨"ThrottlingException"⟩ []
    (by decide) (by decide)

/-- C7: every request carries the query string; the first request carries no
pagination cursor; and each subsequent request carries exactly the
`NextToken` of the immediately preceding response. -/
theorem C7_request_shape (q : String) (script : List (Except Exn Response)) :
    (∀ req ∈ (run_query script q).2, req.QueryString = q) ∧
    (∀ req, ((run_query script q).2).head? = some req → req.NextToken = none) ∧
    (∀ i req, ((run_query script q).2)[i + 1]? = some req →
      ∃ resp, script[i]? = some (Except.ok resp) ∧
        req = { QueryString := q, NextToken := resp.NextToken }) := by
  obtain ⟨h1, h2, h3⟩ := run_query_aux_trace q script none []
  refine ⟨h1, ?_, ?_⟩
  · intro req hreq
    rw [h2 req hreq]
    rfl
  · intro i req hreq
    obtain ⟨resp, ha, hb, hc⟩ := h3 i req hreq
    refine ⟨resp, ha, ?_⟩
    rw [hc]
    simp [mkParams, hb]

/-- C7 witness: on a concrete two-page run the first request has no cursor
and the second request carries the first response's token. -/
theorem C7_request_shape_witness :
    (({ QueryString := "SELECT 1", NextToken := none } : Request).NextToken = none) ∧
    ∃ resp,
      ([Except.ok examplePage1, Except.ok examplePage3] :
        List (Except Exn Response))[0]? = some (Except.ok resp) ∧
      ({ QueryString := "SELECT 1", NextToken := some "t1" } : Request) =
        { QueryString := "SELECT 1", NextToken := resp.NextToken } :=
  ⟨(C7_request_shape "SELECT 1" [Except.ok examplePage1, Except.ok examplePage3]).2.1
      { QueryString := "SELECT 1", NextToken := none } (by decide),
   (C7_request_shape "SELECT 1" [Except.ok examplePage1, Except.ok examplePage3]).2.2
      0 { QueryString := "SELECT 1", NextToken := some "t1" } (by decide)⟩

/-- C9: a response whose `ColumnInfo` or `Rows` field is absent behaves
exactly as one where the field is an explicitly present empty list (so the
page contributes no rows, no error occurs, and pagination proceeds on
`NextToken` as usual), and a row whose `Data` field is absent flattens
exactly as a row with an empty cell list. -/
theorem C9_missing_fields_default_empty (q : String)
    (pre tail : List (Except Exn Response)) (r : Response) :
    run_query (pre ++ Except.ok r :: tail) q =
      run_query (pre ++ Except.ok (respDefaulted r) :: tail) q ∧
    ∀ cols, parse_row ⟨none⟩ cols = parse_row ⟨some []⟩ cols := by
  refine ⟨?_, fun cols => rfl⟩
  exact run_query_aux_congr q _ _ (run_query_aux_defaulted q r tail) pre none []

/-! ### Claim theorems: row flattening -/

theorem lastValue_eq_some (ps : List (ColumnDescriptor × Datum)) (k : FlatKey)
    (v : FlatVal) (h : lastValue ps k = some v) :
    ∃ p ∈ ps, p.1.Name = k ∧ v = p.2.ScalarValue := by
  unfold lastValue at h
  cases hf : ps.reverse.find? (fun p => p.1.Name = k) with
  | none => rw [hf] at h; simp at h
  | some p =>
    rw [hf] at h
    have hval : p.2.ScalarValue = v := by simpa using h
    have hmem := List.mem_reverse.1 (List.mem_of_find?_eq_some hf)
    have hpk := List.find?_some hf
    exact ⟨p, hmem, by simpa using hpk, hval.symm⟩

theorem zip_names_of_length_le (cols : List ColumnDescriptor) (cells : List Datum)
    (h : cols.length ≤ cells.length) :
    (cols.zip cells).map (fun p => p.1.Name) = cols.map ColumnDescriptor.Name := by
  have h1 : (cols.zip cells).map Prod.fst = cols := List.map_fst_zip cols cells h
  calc (cols.zip cells).map (fun p => p.1.Name)
      = ((cols.zip cells).map Prod.fst).map ColumnDescriptor.Name := by
        rw [List.map_map]; rfl
    _ = cols.map ColumnDescriptor.Name := by rw [h1]

/-- C2: for a row and a descriptor list of equal length, the flattened row's
key set is exactly the descriptor names, and (when names are unique, as a
valid page has them) the value stored at each descriptor's name is that
position's cell scalar — `some` a string when present, the null marker
(`none`) when the cell has no value. -/
theorem C2_flatten_equal_length (row : Row) (cols : List ColumnDescriptor)
    (hlen : (row.Data.getD []).length = cols.length) :
    (∀ k, k ∈ (parse_row row cols).map Prod.fst ↔ k ∈ cols.map ColumnDescriptor.Name) ∧
    ((cols.map ColumnDescriptor.Name).Nodup →
      ∀ (i : Nat) (c : ColumnDescriptor) (d : Datum),
        cols[i]? = some c → (row.Data.getD [])[i]? = some d →
        dictGet (parse_row row cols) c.Name = some d.ScalarValue) ∧
    (∀ (k : FlatKey) (v : FlatVal), dictGet (parse_row row cols) k = some v →
      ∃ (i : Nat) (c : ColumnDescriptor) (d : Datum),
        cols[i]? = some c ∧ (row.Data.getD [])[i]? = some d ∧ c.Name = k ∧
        v = d.ScalarValue) := by
  have hnames : (cols.zip (row.Data.getD [])).map (fun p => p.1.Name) =
      cols.map ColumnDescriptor.Name :=
    zip_names_of_length_le cols _ (le_of_eq hlen.symm)
  refine ⟨?_, ?_, ?_⟩
  · intro k
    rw [parse_row_eq_insertPairs, mem_keys_insertPairs, hnames]
    simp
  · intro hnd i c d hc hd
    have hz : (cols.zip (row.Data.getD []))[i]? = some (c, d) :=
      List.getElem?_zip_eq_some.2 ⟨hc, hd⟩
    have hmem : (c, d) ∈ cols.zip (row.Data.getD []) := List.getElem?_mem hz
    have hndz : ((cols.zip (row.Data.getD [])).map (fun p => p.1.Name)).Nodup := by
      rw [hnames]; exact hnd
    have hrev : ((cols.zip (row.Data.getD [])).reverse.map (fun p => p.1.Name)).Nodup := by
      rw [List.map_reverse]; exact List.nodup_reverse.2 hndz
    have hfind : (cols.zip (row.Data.getD [])).reverse.find?
        (fun p => p.1.Name = c.Name) = some (c, d) :=
      find?_eq_self_of_nodup_names _ hrev (c, d) (List.mem_reverse.2 hmem)
    have hlast : lastValue (cols.zip (row.Data.getD [])) c.Name = some d.ScalarValue := by
      unfold lastValue
      rw [hfind]
      rfl
    rw [parse_row_eq_insertPairs, dictGet_insertPairs, hlast]
    rfl
  · intro k v hv
    rw [parse_row_eq_insertPairs, dictGet_insertPairs] at hv
    have hv' : lastValue (cols.zip (row.Data.getD [])) k = some v := by
      cases hl : lastValue (cols.zip (row.Data.getD [])) k with
      | none => rw [hl] at hv; simp [dictGet, Option.or] at hv
      | some a => rw [hl] at hv; simpa [Option.or] using hv
    obtain ⟨p, hmem, hname, hval⟩ := lastValue_eq_some _ _ _ hv'
    obtain ⟨i, hi⟩ := List.mem_iff_getElem?.1 hmem
    obtain ⟨h1, h2⟩ := List.getElem?_zip_eq_some.1 hi
    exact ⟨i, p.1, p.2, h1, h2, hname, hval⟩

/-- C2 witness: one row `["alice"]` against one column `name`. -/
theorem C2_flatten_equal_length_witness :
    ((some "name" : FlatKey) ∈
        (parse_row ⟨some [⟨some "alice"⟩]⟩ [⟨some "name"⟩]).map Prod.fst ↔
      (some "name" : FlatKey) ∈
        ([⟨some "name"⟩] : List ColumnDescriptor).map ColumnDescriptor.Name) ∧
    dictGet (parse_row ⟨some [⟨some "alice"⟩]⟩ [⟨some "name"⟩]) (some "name") =
      some (some "alice") := by
  have h := C2_flatten_equal_length ⟨some [⟨some "alice"⟩]⟩ [⟨some "name"⟩] (by decide)
  exact ⟨h.1 (some "name"),
    h.2.1 (by decide) 0 ⟨some "name"⟩ ⟨some "alice"⟩ (by decide) (by decide)⟩

/-- C4 counterexample: with one cell against three descriptors (two of which
share the name `a`), the flattened row has 1 entry, not 3 — the claimed
unconditional invariant `len(FlattenedRow) == len(ColumnDescriptor)` fails. -/
theorem C4_length_invariant_counterexample :
    ¬((parse_row ⟨some [⟨some "x"⟩]⟩ [⟨some "a"⟩, ⟨some "a"⟩, ⟨some "b"⟩]).length =
      ([⟨some "a"⟩, ⟨some "a"⟩, ⟨some "b"⟩] : List ColumnDescriptor).length) := by
  decide

/-- C4 (amended): when the row has exactly one cell per descriptor and the
descriptor names are pairwise distinct, the flattened row has exactly one
entry per column descriptor. -/
theorem C4_length_invariant_amended (row : Row) (cols : List ColumnDescriptor)
    (hlen : (row.Data.getD []).length = cols.length)
    (hnd : (cols.map ColumnDescriptor.Name).Nodup) :
    (parse_row row cols).length = cols.length := by
  have hnames := zip_names_of_length_le cols (row.Data.getD []) (le_of_eq hlen.symm)
  have hndz : ((cols.zip (row.Data.getD [])).map (fun p => p.1.Name)).Nodup := by
    rw [hnames]; exact hnd
  have h := length_insertPairs (cols.zip (row.Data.getD [])) [] hndz
    (by intro p _; simp)
  rw [parse_row_eq_insertPairs, h]
  simp [List.length_zip, hlen]

/-- C4 witness: two distinct columns, two cells. -/
theorem C4_length_invariant_amended_witness :
    (parse_row ⟨some [⟨some "1"⟩, ⟨none⟩]⟩ [⟨some "a"⟩, ⟨some "b"⟩]).length =
      ([⟨some "a"⟩, ⟨some "b"⟩] : List ColumnDescriptor).length :=
  C4_length_invariant_amended ⟨some [⟨some "1"⟩, ⟨none⟩]⟩ [⟨some "a"⟩, ⟨some "b"⟩]
    (by decide) (by decide)

/-- C5: `parse_row` zips to the shortest side and never fails: with fewer
cells than descriptors, the trailing descriptors are dropped (the result
equals flattening against the truncated descriptor list, and every emitted
key comes from a matched descriptor); with more cells than descriptors, the
extra cells are silently ignored. -/
theorem C5_zip_to_shortest (row : Row) (cols : List ColumnDescriptor) :
    ((row.Data.getD []).length ≤ cols.length →
      parse_row row cols = parse_row row (cols.take (row.Data.getD []).length)) ∧
    (cols.length ≤ (row.Data.getD []).length →
      parse_row ⟨some ((row.Data.getD []).take cols.length)⟩ cols =
        parse_row row cols) ∧
    (∀ k, k ∈ (parse_row row cols).map Prod.fst →
      k ∈ (cols.take (row.Data.getD []).length).map ColumnDescriptor.Name) := by
  refine ⟨fun _ => ?_, fun _ => ?_, ?_⟩
  · rw [parse_row_eq_insertPairs, parse_row_eq_insertPairs, ← zip_truncL]
  · rw [parse_row_eq_insertPairs, parse_row_eq_insertPairs]
    rw [show ((⟨some ((row.Data.getD []).take cols.length)⟩ : Row).Data.getD []) =
      (row.Data.getD []).take cols.length from rfl]
    rw [← zip_truncR]
  · intro k hk
    rw [parse_row_eq_insertPairs, mem_keys_insertPairs] at hk
    rcases hk with h | h
    · simp at h
    · rw [zip_truncL] at h
      obtain ⟨⟨a, b⟩, hp, hpk⟩ := List.mem_map.1 h
      exact List.mem_map.2 ⟨a, (List.of_mem_zip hp).1, by simpa using hpk⟩

/-- C5 witness: one cell against three descriptors, and two cells against
one descriptor. -/
theorem C5_zip_to_shortest_witness :
    parse_row ⟨some [⟨some "x"⟩]⟩ [⟨some "a"⟩, ⟨some "b"⟩, ⟨some "c"⟩] =
      parse_row ⟨some [⟨some "x"⟩]⟩
        (([⟨some "a"⟩, ⟨some "b"⟩, ⟨some "c"⟩] : List ColumnDescriptor).take 1) ∧
    parse_row ⟨some (([⟨some "x"⟩, ⟨some "y"⟩] : List Datum).take 1)⟩ [⟨some "a"⟩] =
      parse_row ⟨some [⟨some "x"⟩, ⟨some "y"⟩]⟩ [⟨some "a"⟩] :=
  ⟨(C5_zip_to_shortest ⟨some [⟨some "x"⟩]⟩ [⟨some "a"⟩, ⟨some "b"⟩, ⟨some "c"⟩]).1
      (by decide),
   (C5_zip_to_shortest ⟨some [⟨some "x"⟩, ⟨some "y"⟩]⟩ [⟨some "a"⟩]).2.1 (by decide)⟩

/-- C8: each matched descriptor's name is used as the output key exactly as
given (a key occurs iff it is the name of some matched descriptor, the empty
string included), and the value stored at any key is the one assigned by the
last matched (descriptor, cell) pair with that name — duplicates silently
overwrite earlier entries with no error. -/
theorem C8_names_as_is_last_wins (row : Row) (cols : List ColumnDescriptor) :
    (∀ k, k ∈ (parse_row row cols).map Prod.fst ↔
      k ∈ (cols.zip (row.Data.getD [])).map (fun p => p.1.Name)) ∧
    (∀ k, dictGet (parse_row row cols) k =
      lastValue (cols.zip (row.Data.getD [])) k) := by
  constructor
  · intro k
    rw [parse_row_eq_insertPairs, mem_keys_insertPairs]
    simp
  · intro k
    rw [parse_row_eq_insertPairs, dictGet_insertPairs]
    cases lastValue (cols.zip (row.Data.getD [])) k <;> simp [dictGet, Option.or]

/-- C10: a descriptor whose `Name` field is absent contributes an entry
keyed by the null marker `none` (no error), and several nameless descriptors
collide on that key with last-wins overwrite (the stored value is the last
nameless pair's cell value). -/
theorem C10_absent_name_null_key (row : Row) (cols : List ColumnDescriptor) :
    (∀ (i : Nat) (c : ColumnDescriptor) (d : Datum),
      (cols.zip (row.Data.getD []))[i]? = some (c, d) → c.Name = none →
      none ∈ (parse_row row cols).map Prod.fst) ∧
    dictGet (parse_row row cols) none =
      lastValue (cols.zip (row.Data.getD [])) none := by
  constructor
  · intro i c d hz hname
    rw [parse_row_eq_insertPairs, mem_keys_insertPairs]
    right
    have hmem : (c, d) ∈ cols.zip (row.Data.getD []) := List.getElem?_mem hz
    have hmap : c.Name ∈ (cols.zip (row.Data.getD [])).map (fun p => p.1.Name) :=
      List.mem_map_of_mem _ hmem
    rw [hname] at hmap
    exact hmap
  · rw [parse_row_eq_insertPairs, dictGet_insertPairs]
    cases lastValue (cols.zip (row.Data.getD [])) none <;> simp [dictGet, Option.or]

/-- C10 witness: two nameless descriptors — the null key is present (and by
computation its value is the second cell's, last-wins). -/
theorem C10_absent_name_null_key_witness :
    (none : FlatKey) ∈
      (parse_row ⟨some [⟨some "v1"⟩, ⟨some "v2"⟩]⟩ [⟨none⟩, ⟨none⟩]).map Prod.fst :=
  (C10_absent_name_null_key ⟨some [⟨some "v1"⟩, ⟨some "v2"⟩]⟩ [⟨none⟩, ⟨none⟩]).1
    0 ⟨none⟩ ⟨some "v1"⟩ (by decide) (by decide)

end QueryTimestream
